import Mathlib

/-!
Verification of the libembeddedhal numeric core (`percent.hpp` and the
frequency/duty-cycle layer) against its specification.

Shallow embedding conventions:
* `std::int32_t` values are modelled as `Int` together with explicit range
  hypotheses `-2^31 ≤ x` and `x < 2^31`; the `std::int64_t` accumulator
  (`percent::overflow_t`) never overflows for `int32` inputs (|product| is at
  most `2^62`), so its arithmetic is exact `Int` arithmetic.
* C++ `/` on signed integers truncates toward zero, which is `Int.tdiv`.
* `static_cast<std::int32_t>` applied to an `std::int64_t` reduces the value
  modulo `2^32` into `[-2^31, 2^31)` (two's complement), modelled by `toInt32`.
* `math.hpp` and `frequency.hpp` are absent from the sources; the definitions
  taken from them are modelled from the specification and say so in their
  doc comments.
-/

namespace Embed

/-- Largest raw value of `percent`: `std::numeric_limits<std::int32_t>::max()`. -/
def RAW_MAX : Int := 2 ^ 31 - 1

/-- Smallest raw value of `percent`: `INT32_MIN + 1` (`percent::raw_min`). -/
def RAW_MIN : Int := -(2 ^ 31 - 1)

/-- Smallest value of the `std::int32_t` storage type itself. -/
def INT32_MIN : Int := -(2 ^ 31)

/-- Largest value of the `std::int32_t` storage type itself. -/
def INT32_MAX : Int := 2 ^ 31 - 1

/-- Reduction of an `Int` modulo `2^32` into `[-2^31, 2^31)`, the effect of
`static_cast<std::int32_t>` on a wider signed value (two's complement). -/
def toInt32 (x : Int) : Int := (x + 2 ^ 31) % 2 ^ 32 - 2 ^ 31

/-- Embedding of `std::clamp(v, lo, hi)`: `v < lo ? lo : (hi < v ? hi : v)`. -/
def stdClamp (v lo hi : Int) : Int := if v < lo then lo else if hi < v then hi else v

/-- Modelled from the spec: `absolute_value` lives in `math.hpp`, which is not
among the sources; per the spec `from_ratio` divides by `abs(maximum)`. -/
def absolute_value (x : Int) : Int := if x < 0 then -x else x

/-- Modelled from the spec: `rounding_division` lives in `math.hpp`, which is
not among the sources.  Per the spec the quotient is "adjusted by adding half
the divisor (with sign awareness) before truncating", i.e. round half away
from zero: for a negative numerator half the divisor is subtracted instead. -/
def rounding_division (numerator denominator : Int) : Int :=
  if numerator < 0 then Int.tdiv (numerator - Int.tdiv denominator 2) denominator
  else Int.tdiv (numerator + Int.tdiv denominator 2) denominator

/-- Embedding of `percent::from_ratio` (raw value of the result) for the
`std::int32_t` instantiation: `(progress * raw_max()) / absolute_value(maximum)`
on the 64-bit accumulator, then `std::clamp`-ed to `[raw_min(), raw_max()]`.
For inputs in the `int32` range the 64-bit product cannot overflow, so the
accumulator arithmetic is exact. -/
def from_ratio (p_progress p_maximum : Int) : Int :=
  stdClamp (Int.tdiv (p_progress * RAW_MAX) (absolute_value p_maximum)) RAW_MIN RAW_MAX

/-- Embedding of `operator*(T p_value, percent p_scale)` for `T = std::int32_t`:
the 64-bit product is divided by `raw_max()` with `rounding_division` and the
result is cast back to `T`. -/
def percent_mul (p_value raw : Int) : Int :=
  toInt32 (rounding_division (p_value * raw) RAW_MAX)

/-- Embedding of the commuted overload `operator*(percent p_scale, T p_value)`,
which the source defines as `p_value * p_scale`. -/
def percent_mul_commuted (raw p_value : Int) : Int := percent_mul p_value raw

/-- Raw value installed by the default constructor `percent()`. -/
def percent_default : Int := 0

/-- Bit-replication loop of `upscale_integer`:
`for (i = final_source_width; i < final_width; i += final_source_width)
   result |= result >> i;`
with `final_width = 31` for the `std::int32_t` destination.  The loop is
modelled with explicit fuel; since the step `s` is at least 1 and the loop
stops once `i` reaches 31, the source loop performs at most 30 iterations, so
fuel 31 makes the model agree with the source for every `SourceWidth ≥ 2`. -/
def repLoop : Nat → Nat → Nat → Nat → Nat
  | 0, _, _, result => result
  | fuel + 1, s, i, result =>
      if i < 31 then repLoop fuel s (i + s) (result ||| (result >>> i)) else result

/-- Embedding of `upscale_integer<std::int32_t, w, std::int32_t>` for
`2 ≤ w ≤ 32` and an in-range `w`-bit signed input.  With both types signed,
`final_source_width = w - 1`, `final_width = 31` and
`width_difference = 32 - w`; the initial left shift is exact multiplication by
`2 ^ (32 - w)` (no overflow for in-range inputs), and the replication loop runs
only for strictly positive inputs, on non-negative values below `2^31`, where
`int32` bitwise operations agree with `Nat` bitwise operations. -/
def upscale_integer (w : Nat) (p_value : Int) : Int :=
  let d := 32 - w
  let shifted := p_value * 2 ^ d
  if 0 < p_value then ((repLoop 31 (w - 1) (w - 1) shifted.toNat : Nat) : Int) else shifted

/-- Embedding of `percent::convert<w>` (raw value of the result): the upscaled
value is wrapped directly by the private constructor, with no clamping. -/
def convert (w : Nat) (p_value : Int) : Int := upscale_integer w p_value

/-- Digit character for a value below ten, as produced by `std::to_chars`. -/
def digitChar (n : Nat) : Char := Char.ofNat (48 + n)

/-- Decimal digit expansion used to model `std::to_chars`, with explicit fuel;
fuel 10 covers every value below `10^10`, and `to_string` only converts values
at most `10^9 - 1`. -/
def toDecimalAux : Nat → Nat → List Char → List Char
  | 0, _, acc => acc
  | fuel + 1, n, acc =>
      if n = 0 then acc else toDecimalAux fuel (n / 10) (digitChar (n % 10) :: acc)

/-- Decimal digit characters of `n`, most significant first, `"0"` for zero,
exactly as `std::to_chars` renders a non-negative `std::int32_t`. -/
def toDecimal (n : Nat) : List Char := if n = 0 then [digitChar 0] else toDecimalAux 10 n []

/-- Embedding of `percent::to_string` as the list of the 13 bytes of the
returned `std::array<char, 13>`.  The source writes the sign at index 0, `'0'`
and `'.'` at indices 1 and 2, leading zeros at indices `3 ≤ i < leading_zeros`,
the digit characters at indices `leading_zeros ≤ i < 12`, and leaves the
zero-initialized terminator at index 12; because the digit count never exceeds
9 (proved below), those writes are disjoint and cover indices 0 to 11, which
the concatenation below reproduces byte for byte. -/
def to_string (raw : Int) : List Char :=
  if RAW_MAX - 2 ≤ raw then
    ['+', '1', '.', '0', '0', '0', '0', '0', '0', '0', '0', '0', Char.ofNat 0]
  else if raw ≤ RAW_MIN + 2 then
    ['-', '1', '.', '0', '0', '0', '0', '0', '0', '0', '0', '0', Char.ofNat 0]
  else
    let abs_raw : Int := if raw < 0 then raw * (-1) else raw
    let decimal_percent : Int := percent_mul 1000000000 abs_raw
    let digits : List Char := toDecimal decimal_percent.toNat
    let leading_zeros : Nat := 12 - digits.length
    [(if raw < 0 then '-' else '+'), '0', '.'] ++
      List.replicate (leading_zeros - 3) '0' ++ digits ++ [Char.ofNat 0]

/-- Modelled from the spec and the in-src divider test table: `frequency.hpp`
is not among the sources.  The spec calls division of one frequency by another
"integer-truncated", but the repository's own test table
(`frequency.test.cpp`: `140_MHz / 12_kHz == 11667` where truncation gives
11666, and `53_kHz / 1337_Hz == 40` where truncation gives 39) requires the
ratio of the two `cycles_per_second` magnitudes rounded to nearest, which
`rounding_division` provides and which also reproduces every zero row of the
table. -/
def frequency_div (p_lhs p_rhs : Int) : Int := rounding_division p_lhs p_rhs

/-- Modelled from the spec: `frequency.hpp` is not among the sources.
`cycles_per(duration)` is the truncated count of whole cycles in the duration,
`magnitude * duration_in_seconds` truncated toward zero; the duration is the
exact rational `dur_num / dur_den` seconds. -/
def cycles_per (cycles_per_second dur_num dur_den : Int) : Int :=
  Int.tdiv (cycles_per_second * dur_num) dur_den

/-- Modelled from the spec: `frequency.hpp` is not among the sources.
`calculate_duty_cycle(period, percent)` computes
`total_cycles = cycles_per(period)`, then `high = total_cycles * percent` by
the percent scalar-multiplication rule, then `low = total_cycles - high`. -/
def calculate_duty_cycle (cycles_per_second dur_num dur_den raw : Int) : Int × Int :=
  let total_cycles := cycles_per cycles_per_second dur_num dur_den
  let high := percent_mul total_cycles raw
  (high, total_cycles - high)

/-! ### Arithmetic helper lemmas -/

theorem toInt32_eq_self (x : Int) (h1 : -(2 ^ 31) ≤ x) (h2 : x < 2 ^ 31) : toInt32 x = x := by
  unfold toInt32
  omega

theorem absolute_value_eq_abs (m : Int) : absolute_value m = |m| := by
  unfold absolute_value
  rcases abs_cases m with ⟨h1, h2⟩ | ⟨h1, h2⟩ <;> split <;> omega

theorem stdClamp_eq_max_min (v lo hi : Int) (h : lo ≤ hi) :
    stdClamp v lo hi = max lo (min hi v) := by
  unfold stdClamp
  split_ifs <;> omega

/-- Key property of `rounding_division` at the divisor `RAW_MAX`: the result is
within half the (odd) divisor of the exact quotient, i.e. it is the integer
nearest to `n / RAW_MAX`. -/
theorem rounding_division_near (n : Int) :
    -RAW_MAX < 2 * (n - rounding_division n RAW_MAX * RAW_MAX) ∧
    2 * (n - rounding_division n RAW_MAX * RAW_MAX) < RAW_MAX := by
  have hhalf : Int.tdiv RAW_MAX 2 = 1073741823 := by decide
  have hmax : RAW_MAX = 2147483647 := by decide
  unfold rounding_division
  rw [hhalf, hmax]
  by_cases hn : n < 0
  · rw [if_pos hn]
    have h1 : Int.tdiv (n - 1073741823) 2147483647
        = -Int.tdiv (1073741823 - n) 2147483647 := by
      have h := Int.neg_tdiv (1073741823 - n) 2147483647
      rw [neg_sub] at h
      exact h
    have h2 : Int.tdiv (1073741823 - n) 2147483647 = (1073741823 - n) / 2147483647 :=
      Int.tdiv_eq_ediv (by omega) (by omega)
    rw [h1, h2]
    omega
  · rw [if_neg hn]
    have h2 : Int.tdiv (n + 1073741823) 2147483647 = (n + 1073741823) / 2147483647 :=
      Int.tdiv_eq_ediv (by omega) (by omega)
    rw [h2]
    omega

/-! ### C2: from_ratio computes the clamped 64-bit ratio -/

/-- C2: for every `int32` pair `(progress, maximum)` with `maximum ≠ 0`,
`from_ratio` stores `clamp((progress * RAW_MAX) / |maximum|, RAW_MIN, RAW_MAX)`
with truncating division; for `int32` inputs the 64-bit accumulator is exact,
so the accumulator arithmetic is plain integer arithmetic. -/
theorem from_ratio_eq_clamped_ratio (p m : Int)
    (hp1 : -(2 ^ 31) ≤ p) (hp2 : p < 2 ^ 31)
    (hm1 : -(2 ^ 31) ≤ m) (hm2 : m < 2 ^ 31) (hm0 : m ≠ 0) :
    from_ratio p m = max RAW_MIN (min RAW_MAX (Int.tdiv (p * RAW_MAX) |m|)) := by
  unfold from_ratio
  rw [absolute_value_eq_abs]
  exact stdClamp_eq_max_min _ _ _ (by decide)

theorem from_ratio_eq_clamped_ratio_witness :
    from_ratio 1 2 = max RAW_MIN (min RAW_MAX (Int.tdiv (1 * RAW_MAX) |(2 : Int)|)) :=
  from_ratio_eq_clamped_ratio 1 2 (by decide) (by decide) (by decide) (by decide)
    (by decide)

/-! ### C9: frequency division -/

/-- C9 is false as stated: at `140 MHz / 12 kHz` the integer-truncated ratio
is 11666, but the program returns 11667 (the value the repository's own test
expects), so the division is not truncating; and at `2 Hz / 3 Hz` the
numerator magnitude is strictly smaller than the denominator magnitude yet
the result is 1, not 0. -/
theorem frequency_div_truncation_counterexample :
    frequency_div 140000000 12000 = 11667 ∧
    Int.tdiv 140000000 12000 = 11666 ∧
    (11667 : Int) ≠ 11666 ∧
    frequency_div 2 3 = 1 ∧
    (2 : Int).natAbs < (3 : Int).natAbs ∧
    (1 : Int) ≠ 0 := by
  exact ⟨by decide, by decide, by decide, by decide, by decide, by decide⟩

/-- C9 (amended): dividing one frequency by another yields the ratio of the
`cycles_per_second` magnitudes rounded to nearest (half away from zero) —
characterized by the remainder window `-b ≤ 2*(a - q*b) < b` — not the
truncated ratio; the result is exactly zero precisely when twice the
numerator magnitude is below the denominator magnitude (in particular
whenever the ratio is below one half); the claim's concrete cases
`1 MHz / 3 kHz = 333` and `10 kHz / 12 MHz = 0` do hold, as do the test
table's `140 MHz / 12 kHz = 11667` and `53 kHz / 1337 Hz = 40` that
truncation would miss. -/
theorem frequency_div_rounded_spec (a b : Int) (ha : 0 ≤ a) (hb : 0 < b) :
    (-b ≤ 2 * (a - frequency_div a b * b) ∧ 2 * (a - frequency_div a b * b) < b) ∧
    (frequency_div a b = 0 ↔ 2 * a < b) ∧
    frequency_div 1000000 3000 = 333 ∧
    frequency_div 10000 12000000 = 0 ∧
    frequency_div 140000000 12000 = 11667 ∧
    frequency_div 53000 1337 = 40 := by
  have hchar : -b ≤ 2 * (a - frequency_div a b * b) ∧
      2 * (a - frequency_div a b * b) < b := by
    unfold frequency_div rounding_division
    rw [if_neg (by omega : ¬ a < 0)]
    have hh : Int.tdiv b 2 = b / 2 := Int.tdiv_eq_ediv (by omega) (by omega)
    rw [hh]
    have hb2 : 0 ≤ b / 2 := by omega
    have ht : Int.tdiv (a + b / 2) b = (a + b / 2) / b :=
      Int.tdiv_eq_ediv (by omega) (by omega)
    rw [ht]
    rw [mul_comm ((a + b / 2) / b) b]
    have hdm := Int.ediv_add_emod (a + b / 2) b
    have hr0 : 0 ≤ (a + b / 2) % b := Int.emod_nonneg _ (by omega)
    have hr1 : (a + b / 2) % b < b := Int.emod_lt_of_pos _ hb
    omega
  have hiff : frequency_div a b = 0 ↔ 2 * a < b := by
    constructor
    · intro h0
      have hc := hchar
      rw [h0] at hc
      simp only [zero_mul] at hc
      omega
    · intro hlt
      rcases hchar with ⟨h1, h2⟩
      by_contra hne
      rcases lt_or_gt_of_ne hne with hq | hq
      · have hqb : frequency_div a b * b ≤ -b := by
          have hm1 : frequency_div a b ≤ -1 := by omega
          calc frequency_div a b * b ≤ (-1) * b := mul_le_mul_of_nonneg_right hm1 hb.le
            _ = -b := by ring
        omega
      · have hqb : b ≤ frequency_div a b * b := by
          have hm1 : 1 ≤ frequency_div a b := by omega
          calc b = 1 * b := by ring
            _ ≤ frequency_div a b * b := mul_le_mul_of_nonneg_right hm1 hb.le
        omega
  exact ⟨hchar, hiff, by decide, by decide, by decide, by decide⟩

theorem frequency_div_rounded_spec_witness :
    (frequency_div 140000000 12000 = 0 ↔ (2 : Int) * 140000000 < 12000) ∧
    frequency_div 140000000 12000 = 11667 ∧
    frequency_div 1000000 3000 = 333 :=
  ⟨(frequency_div_rounded_spec 140000000 12000 (by decide) (by decide)).2.1,
    (frequency_div_rounded_spec 140000000 12000 (by decide) (by decide)).2.2.2.2.1,
    (frequency_div_rounded_spec 140000000 12000 (by decide) (by decide)).2.2.1⟩

/-! ### C3: scalar multiplication rounds half away from zero -/

/-- C3 as stated is false at the extreme point `v = INT32_MIN`,
`raw = RAW_MIN`: the 64-bit rounded quotient is exactly `2^31`, which the
final `static_cast` back to `std::int32_t` wraps to `-2^31`, so the returned
product does not equal the rounded quotient there. -/
theorem percent_mul_wrap_counterexample :
    percent_mul (-(2 ^ 31)) RAW_MIN = -(2 ^ 31) ∧
    2 * |(-(2 ^ 31) : Int) * RAW_MIN - 2 ^ 31 * RAW_MAX| < RAW_MAX ∧
    (-(2 ^ 31) : Int) ≠ 2 ^ 31 := by
  refine ⟨by decide, by decide, by decide⟩

/-- C3 (amended): for every `int32` value `v` and every percent raw value, the
product `v * p` (and identically the commuted `p * v`) equals the quotient
`(v * raw) / RAW_MAX` rounded half away from zero — characterized as the
unique integer within half of the odd divisor `RAW_MAX` — provided that
rounded quotient is representable in `std::int32_t`; at
`v = INT32_MIN, raw = RAW_MIN` the rounded quotient `2^31` is not, and the
cast wraps it. -/
theorem percent_mul_rounds_half_away (v raw q : Int)
    (hv1 : -(2 ^ 31) ≤ v) (hv2 : v < 2 ^ 31)
    (hr1 : RAW_MIN ≤ raw) (hr2 : raw ≤ RAW_MAX)
    (hq1 : -(2 ^ 31) ≤ q) (hq2 : q < 2 ^ 31)
    (hq : 2 * |v * raw - q * RAW_MAX| < RAW_MAX) :
    percent_mul v raw = q ∧ percent_mul_commuted raw v = q := by
  have hnear := rounding_division_near (v * raw)
  have heq : rounding_division (v * raw) RAW_MAX = q := by
    rcases abs_cases (v * raw - q * RAW_MAX) with ⟨ha, hs⟩ | ⟨ha, hs⟩ <;>
      rw [ha] at hq <;>
      simp only [RAW_MAX] at hnear hq hs ⊢ <;>
      omega
  have hpm : percent_mul v raw = q := by
    unfold percent_mul
    rw [heq]
    exact toInt32_eq_self q hq1 hq2
  exact ⟨hpm, hpm⟩

theorem percent_mul_rounds_half_away_witness :
    percent_mul 100 1073741824 = 50 ∧ percent_mul_commuted 1073741824 100 = 50 :=
  percent_mul_rounds_half_away 100 1073741824 50 (by decide) (by decide) (by decide)
    (by decide) (by decide) (by decide) (by decide)

/-! ### C10: scaling by a percent never increases magnitude -/

/-- C10: for every `int32` value `v` and every percent raw value inside
`[RAW_MIN, RAW_MAX]`, the absolute value of `v * p` is at most the absolute
value of `v` (the wrap of the single extreme quotient `2^31` to `-2^31` keeps
the same magnitude). -/
theorem percent_mul_magnitude_le (v raw : Int)
    (hv1 : -(2 ^ 31) ≤ v) (hv2 : v < 2 ^ 31)
    (hr1 : RAW_MIN ≤ raw) (hr2 : raw ≤ RAW_MAX) :
    |percent_mul v raw| ≤ |v| := by
  have hnear := rounding_division_near (v * raw)
  have hrabs : |raw| ≤ 2147483647 := by
    rcases abs_cases raw with ⟨ha, hs⟩ | ⟨ha, hs⟩ <;> rw [ha] <;>
      simp only [RAW_MIN, RAW_MAX] at hr1 hr2 <;> omega
  have hprod : |v * raw| ≤ |v| * 2147483647 := by
    rw [abs_mul]
    exact mul_le_mul_of_nonneg_left hrabs (abs_nonneg v)
  have hprod2 : -(|v| * 2147483647) ≤ v * raw ∧ v * raw ≤ |v| * 2147483647 :=
    abs_le.mp hprod
  have hvb : |v| ≤ 2 ^ 31 := by
    rcases abs_cases v with ⟨ha, hs⟩ | ⟨ha, hs⟩ <;> omega
  have hv0 : (0 : Int) ≤ |v| := abs_nonneg v
  have hq0 : -|v| ≤ rounding_division (v * raw) RAW_MAX ∧
      rounding_division (v * raw) RAW_MAX ≤ |v| := by
    simp only [RAW_MAX] at hnear ⊢
    omega
  unfold percent_mul
  rcases abs_cases (toInt32 (rounding_division (v * raw) RAW_MAX)) with ⟨hb, hs⟩ | ⟨hb, hs⟩ <;>
    rw [hb] <;>
    unfold toInt32 <;>
    omega

theorem percent_mul_magnitude_le_witness : |percent_mul 100 1073741824| ≤ |(100 : Int)| :=
  percent_mul_magnitude_le 100 1073741824 (by decide) (by decide) (by decide) (by decide)

/-! ### Bit-replication lemmas for upscale_integer -/

theorem shiftRight_or_distrib (a b k : Nat) : (a ||| b) >>> k = (a >>> k) ||| (b >>> k) := by
  apply Nat.eq_of_testBit_eq
  intro j
  simp [Nat.testBit_shiftRight, Nat.testBit_or]

/-- A bitwise or with a summand below `2 ^ d` does not disturb the bits at and
above position `d`. -/
theorem or_div_pow_eq (a b d : Nat) (hb : b < 2 ^ d) : (a ||| b) / 2 ^ d = a / 2 ^ d := by
  have h1 : (a ||| b) >>> d = (a >>> d) ||| (b >>> d) := shiftRight_or_distrib a b d
  have hb0 : b >>> d = 0 := by
    rw [Nat.shiftRight_eq_div_pow]
    exact Nat.div_eq_of_lt hb
  rw [hb0, Nat.or_zero, Nat.shiftRight_eq_div_pow, Nat.shiftRight_eq_div_pow] at h1
  exact h1

/-- Loop invariant of the replication loop: once the running shift `i` is at
least the source width `s` (with `s + d = 31`), every `result |= result >> i`
step leaves the quotient by `2 ^ d` — the original upscaled bits — unchanged
and keeps the value below `2 ^ 31`. -/
theorem repLoop_bounds (d : Nat) :
    ∀ fuel s i R, 0 < s → s + d = 31 → s ≤ i → R < 2 ^ 31 →
      repLoop fuel s i R / 2 ^ d = R / 2 ^ d ∧ repLoop fuel s i R < 2 ^ 31 := by
  intro fuel
  induction fuel with
  | zero =>
      intro s i R hs hsd hsi hR
      exact ⟨rfl, hR⟩
  | succ n ih =>
      intro s i R hs hsd hsi hR
      simp only [repLoop]
      by_cases hi : i < 31
      · rw [if_pos hi]
        have hshift : R >>> i < 2 ^ d := by
          have h1 : R >>> i ≤ R >>> s := by
            rw [Nat.shiftRight_eq_div_pow, Nat.shiftRight_eq_div_pow]
            exact Nat.div_le_div_left (Nat.pow_le_pow_right (by norm_num) hsi)
              (Nat.pos_pow_of_pos s (by norm_num))
          have h2 : R >>> s < 2 ^ d := by
            rw [Nat.shiftRight_eq_div_pow]
            rw [Nat.div_lt_iff_lt_mul (Nat.pos_pow_of_pos s (by norm_num))]
            calc R < 2 ^ 31 := hR
              _ = 2 ^ d * 2 ^ s := by rw [← pow_add]; rw [Nat.add_comm d s, hsd]
          exact lt_of_le_of_lt h1 h2
        have hd31 : 2 ^ d ≤ 2 ^ 31 := Nat.pow_le_pow_right (by norm_num) (by omega)
        have hR' : R ||| (R >>> i) < 2 ^ 31 :=
          Nat.or_lt_two_pow hR (lt_of_lt_of_le hshift hd31)
        have hdiv : (R ||| (R >>> i)) / 2 ^ d = R / 2 ^ d := or_div_pow_eq R (R >>> i) d hshift
        have hrec := ih s (i + s) (R ||| (R >>> i)) hs hsd (by omega) hR'
        exact ⟨by rw [hrec.1, hdiv], hrec.2⟩
      · rw [if_neg hi]
        exact ⟨rfl, hR⟩

/-- Sandwich bounds for the positive branch of `upscale_integer`: the result
keeps the upscaled input in the bits at and above position `32 - w`, so it
lies in `[x * 2 ^ (32 - w), (x + 1) * 2 ^ (32 - w))`. -/
theorem upscale_integer_pos_bounds (w : Nat) (x : Int) (h2 : 2 ≤ w) (h32 : w ≤ 32)
    (hpos : 0 < x) (hlt : x < 2 ^ (w - 1)) :
    x * 2 ^ (32 - w) ≤ upscale_integer w x ∧
      upscale_integer w x < (x + 1) * 2 ^ (32 - w) := by
  simp only [upscale_integer]
  rw [if_pos hpos]
  have hsd : (w - 1) + (32 - w) = 31 := by omega
  have hs0 : 0 < w - 1 := by omega
  have hxX : ((x.toNat : Int)) = x := Int.toNat_of_nonneg hpos.le
  have hcast : x * 2 ^ (32 - w) = ((x.toNat * 2 ^ (32 - w) : Nat) : Int) := by
    push_cast [hxX]
    ring
  have htoNat : (x * 2 ^ (32 - w)).toNat = x.toNat * 2 ^ (32 - w) := by
    rw [hcast, Int.toNat_natCast]
  have hXlt : x.toNat < 2 ^ (w - 1) := by
    have hcast2 : ((x.toNat : Int)) < ((2 ^ (w - 1) : Nat) : Int) := by
      rw [hxX]
      push_cast
      exact hlt
    exact_mod_cast hcast2
  have hR0 : x.toNat * 2 ^ (32 - w) < 2 ^ 31 := by
    calc x.toNat * 2 ^ (32 - w) < 2 ^ (w - 1) * 2 ^ (32 - w) :=
          (Nat.mul_lt_mul_right (Nat.pos_pow_of_pos _ (by norm_num))).mpr hXlt
      _ = 2 ^ 31 := by rw [← pow_add, hsd]
  have hdiv0 : x.toNat * 2 ^ (32 - w) / 2 ^ (32 - w) = x.toNat :=
    Nat.mul_div_cancel _ (Nat.pos_pow_of_pos _ (by norm_num))
  have hmain := repLoop_bounds (32 - w) 31 (w - 1) (w - 1) (x.toNat * 2 ^ (32 - w))
    hs0 hsd le_rfl hR0
  rw [htoNat]
  rw [hdiv0] at hmain
  have hdm := Nat.div_add_mod (repLoop 31 (w - 1) (w - 1) (x.toNat * 2 ^ (32 - w))) (2 ^ (32 - w))
  have hmod : repLoop 31 (w - 1) (w - 1) (x.toNat * 2 ^ (32 - w)) % 2 ^ (32 - w) < 2 ^ (32 - w) :=
    Nat.mod_lt _ (Nat.pos_pow_of_pos _ (by norm_num))
  rw [hmain.1] at hdm
  rw [Nat.mul_comm (2 ^ (32 - w)) x.toNat] at hdm
  constructor
  · rw [hcast]
    have hle : x.toNat * 2 ^ (32 - w) ≤ repLoop 31 (w - 1) (w - 1) (x.toNat * 2 ^ (32 - w)) := by
      omega
    exact_mod_cast hle
  · have hub : (x + 1) * 2 ^ (32 - w) = (((x.toNat + 1) * 2 ^ (32 - w) : Nat) : Int) := by
      push_cast [hxX]
      ring
    rw [hub]
    have hlt2 : repLoop 31 (w - 1) (w - 1) (x.toNat * 2 ^ (32 - w)) <
        (x.toNat + 1) * 2 ^ (32 - w) := by
      have hexp : (x.toNat + 1) * 2 ^ (32 - w) = x.toNat * 2 ^ (32 - w) + 2 ^ (32 - w) := by
        ring
      omega
    exact_mod_cast hlt2

/-! ### C6: upscale_integer is monotonic for a fixed source width -/

/-- C6: for the `std::int32_t` source and destination instantiation and any
fixed `SourceWidth` `w` with `2 ≤ w ≤ 32`, `upscale_integer` is monotonic on
in-range `w`-bit signed inputs: `a < b` implies
`upscale_integer(a) ≤ upscale_integer(b)`. -/
theorem upscale_integer_monotone (w : Nat) (a b : Int) (h2 : 2 ≤ w) (h32 : w ≤ 32)
    (ha : -(2 ^ (w - 1)) ≤ a) (hb : b < 2 ^ (w - 1)) (hab : a < b) :
    upscale_integer w a ≤ upscale_integer w b := by
  by_cases hbpos : 0 < b
  · have hbb := upscale_integer_pos_bounds w b h2 h32 hbpos hb
    by_cases hapos : 0 < a
    · have haa := upscale_integer_pos_bounds w a h2 h32 hapos (lt_trans hab hb)
      have hstep : (a + 1) * 2 ^ (32 - w) ≤ b * 2 ^ (32 - w) :=
        mul_le_mul_of_nonneg_right (by omega) (by positivity)
      linarith [haa.2, hbb.1]
    · have hup : upscale_integer w a = a * 2 ^ (32 - w) := by
        simp only [upscale_integer]
        rw [if_neg hapos]
      have h1 : a * 2 ^ (32 - w) ≤ 0 :=
        mul_nonpos_iff.mpr (Or.inr ⟨by omega, by positivity⟩)
      have h3 : (0 : Int) ≤ b * 2 ^ (32 - w) := by positivity
      linarith [hbb.1]
  · have hapos : ¬ 0 < a := by omega
    simp only [upscale_integer]
    rw [if_neg hapos, if_neg hbpos]
    exact mul_le_mul_of_nonneg_right (le_of_lt hab) (by positivity)

theorem upscale_integer_monotone_witness : upscale_integer 4 3 ≤ upscale_integer 4 5 :=
  upscale_integer_monotone 4 3 5 (by decide) (by decide) (by decide) (by decide) (by decide)

/-! ### C1: the raw-range invariant -/

/-- C1 is false as stated: `percent::convert<4>(-8)` stores the raw value
`-2^31 = INT32_MIN`, strictly below `RAW_MIN`; the repository's own test
(`percent.test.cpp`, `4-bit_scaling`) expects exactly this value
(`0b1000 << 28`). -/
theorem convert_int32_min_counterexample :
    convert 4 (-8) = INT32_MIN ∧ convert 4 (-8) < RAW_MIN := by
  exact ⟨by decide, by decide⟩

/-- C1 (amended): default construction and `from_ratio` always leave the raw
value inside `[RAW_MIN, RAW_MAX]`, but `convert` only guarantees the full
`std::int32_t` range `[INT32_MIN, RAW_MAX]`: it can store `INT32_MIN` itself
(e.g. `convert<4>(-8)`), so the exclusion of `INT32_MIN` does not hold for
`convert`.  (Floating-point construction and assignment are outside this
integer model.) -/
theorem raw_range_amended :
    (∀ p m : Int, RAW_MIN ≤ from_ratio p m ∧ from_ratio p m ≤ RAW_MAX) ∧
    (RAW_MIN ≤ percent_default ∧ percent_default ≤ RAW_MAX) ∧
    (∀ (w : Nat) (x : Int), 2 ≤ w → w ≤ 32 → -(2 ^ (w - 1)) ≤ x → x < 2 ^ (w - 1) →
      INT32_MIN ≤ convert w x ∧ convert w x ≤ RAW_MAX) := by
  refine ⟨?_, by decide, ?_⟩
  · intro p m
    unfold from_ratio stdClamp
    have h : RAW_MIN ≤ RAW_MAX := by decide
    split_ifs <;> omega
  · intro w x h2 h32 hx1 hx2
    by_cases hpos : 0 < x
    · have hb := upscale_integer_pos_bounds w x h2 h32 hpos hx2
      have h1 : (0 : Int) ≤ x * 2 ^ (32 - w) := by positivity
      have h3 : (x + 1) * 2 ^ (32 - w) ≤ 2 ^ (w - 1) * 2 ^ (32 - w) :=
        mul_le_mul_of_nonneg_right (by omega) (by positivity)
      have h4 : (2 : Int) ^ (w - 1) * 2 ^ (32 - w) = 2 ^ 31 := by
        rw [← pow_add]
        congr 1
        omega

      constructor
      · unfold convert
        simp only [INT32_MIN]
        linarith [hb.1]
      · unfold convert
        simp only [RAW_MAX]
        have : upscale_integer w x < 2 ^ 31 := by
          calc upscale_integer w x < (x + 1) * 2 ^ (32 - w) := hb.2
            _ ≤ 2 ^ (w - 1) * 2 ^ (32 - w) := h3
            _ = 2 ^ 31 := h4
        omega
    · unfold convert
      simp only [upscale_integer]
      rw [if_neg hpos]
      have h4 : (2 : Int) ^ (w - 1) * 2 ^ (32 - w) = 2 ^ 31 := by
        rw [← pow_add]
        congr 1
        omega
      constructor
      · simp only [INT32_MIN]
        have h5 : -(2 ^ (w - 1)) * 2 ^ (32 - w) ≤ x * 2 ^ (32 - w) :=
          mul_le_mul_of_nonneg_right hx1 (by positivity)
        have h6 : -(2 : Int) ^ (w - 1) * 2 ^ (32 - w) = -(2 ^ 31) := by
          rw [neg_mul, h4]
        linarith
      · simp only [RAW_MAX]
        have h7 : x * 2 ^ (32 - w) ≤ 0 :=
          mul_nonpos_iff.mpr (Or.inr ⟨by omega, by positivity⟩)
        have : (0 : Int) ≤ 2 ^ 31 - 1 := by norm_num
        omega

theorem raw_range_amended_witness :
    (RAW_MIN ≤ from_ratio 1 2 ∧ from_ratio 1 2 ≤ RAW_MAX) ∧
    (INT32_MIN ≤ convert 4 (-8) ∧ convert 4 (-8) ≤ RAW_MAX) :=
  ⟨raw_range_amended.1 1 2,
    raw_range_amended.2.2 4 (-8) (by decide) (by decide) (by decide) (by decide)⟩

/-! ### C4: boundary serialization -/

/-- C4: every raw value within 2 of `RAW_MAX` serializes to exactly
`+1.000000000` (with the terminating zero byte), and symmetrically every raw
value within 2 of `RAW_MIN` serializes to exactly `-1.000000000`. -/
theorem to_string_boundary (raw : Int) :
    (RAW_MAX - 2 ≤ raw → to_string raw =
      ['+', '1', '.', '0', '0', '0', '0', '0', '0', '0', '0', '0', Char.ofNat 0]) ∧
    (raw ≤ RAW_MIN + 2 → to_string raw =
      ['-', '1', '.', '0', '0', '0', '0', '0', '0', '0', '0', '0', Char.ofNat 0]) := by
  constructor
  · intro h
    unfold to_string
    rw [if_pos h]
  · intro h
    have hnot : ¬ RAW_MAX - 2 ≤ raw := by
      simp only [RAW_MAX, RAW_MIN] at h ⊢
      omega
    unfold to_string
    rw [if_neg hnot, if_pos h]

theorem to_string_boundary_witness :
    to_string (RAW_MAX - 1) =
      ['+', '1', '.', '0', '0', '0', '0', '0', '0', '0', '0', '0', Char.ofNat 0] ∧
    to_string (RAW_MIN + 1) =
      ['-', '1', '.', '0', '0', '0', '0', '0', '0', '0', '0', '0', Char.ofNat 0] :=
  ⟨(to_string_boundary (RAW_MAX - 1)).1 (by decide),
    (to_string_boundary (RAW_MIN + 1)).2 (by decide)⟩

/-! ### Decimal rendering lemmas -/

theorem digitChar_isDigit (m : Nat) (h : m < 10) : (digitChar m).isDigit := by
  interval_cases m <;> decide

theorem toDecimalAux_digits (fuel : Nat) :
    ∀ n acc, (∀ c ∈ acc, c.isDigit) → ∀ c ∈ toDecimalAux fuel n acc, c.isDigit := by
  induction fuel with
  | zero =>
      intro n acc hacc
      exact hacc
  | succ k ih =>
      intro n acc hacc
      simp only [toDecimalAux]
      by_cases hn : n = 0
      · rw [if_pos hn]
        exact hacc
      · rw [if_neg hn]
        apply ih
        intro c hc
        rcases List.mem_cons.mp hc with hh | hh
        · rw [hh]
          exact digitChar_isDigit _ (Nat.mod_lt _ (by norm_num))
        · exact hacc c hh

theorem toDecimal_digits (n : Nat) : ∀ c ∈ toDecimal n, c.isDigit := by
  unfold toDecimal
  by_cases hn : n = 0
  · rw [if_pos hn]
    intro c hc
    simp only [List.mem_singleton] at hc
    rw [hc]
    decide
  · rw [if_neg hn]
    exact toDecimalAux_digits 10 n [] (by simp)

theorem toDecimalAux_length (fuel : Nat) :
    ∀ k n acc, n < 10 ^ k → k ≤ fuel →
      (toDecimalAux fuel n acc).length ≤ k + acc.length := by
  induction fuel with
  | zero =>
      intro k n acc hn hk
      simp only [toDecimalAux]
      omega
  | succ f ih =>
      intro k n acc hn hk
      simp only [toDecimalAux]
      by_cases hz : n = 0
      · rw [if_pos hz]
        omega
      · rw [if_neg hz]
        rcases k with _ | k2
        · exfalso
          simp only [pow_zero] at hn
          omega
        · have hdiv : n / 10 < 10 ^ k2 := by
            rw [Nat.div_lt_iff_lt_mul (by norm_num)]
            calc n < 10 ^ (k2 + 1) := hn
              _ = 10 ^ k2 * 10 := by rw [pow_succ]
          have hrec := ih k2 (n / 10) (digitChar (n % 10) :: acc) hdiv (by omega)
          simp only [List.length_cons] at hrec
          omega

theorem toDecimal_length_le (n : Nat) (h : n < 10 ^ 9) : (toDecimal n).length ≤ 9 := by
  unfold toDecimal
  by_cases hz : n = 0
  · rw [if_pos hz]
    simp
  · rw [if_neg hz]
    have := toDecimalAux_length 10 9 n [] h (by norm_num)
    simpa using this

/-- Range of the billionths value rendered by `to_string` in its main branch:
for `0 ≤ a ≤ RAW_MAX - 3` the scalar product `1000000000 * a / RAW_MAX`
rounded half away from zero lies in `[0, 999999999]`, so it does not wrap in
the cast and has at most nine decimal digits. -/
theorem decimal_percent_bounds (a : Int) (h0 : 0 ≤ a) (h1 : a ≤ RAW_MAX - 3) :
    0 ≤ percent_mul 1000000000 a ∧ percent_mul 1000000000 a ≤ 999999999 := by
  have hnear := rounding_division_near (1000000000 * a)
  simp only [RAW_MAX] at hnear h1
  have hq : 0 ≤ rounding_division (1000000000 * a) (2 ^ 31 - 1) ∧
      rounding_division (1000000000 * a) (2 ^ 31 - 1) ≤ 999999999 := by
    omega
  have hid : toInt32 (rounding_division (1000000000 * a) RAW_MAX)
      = rounding_division (1000000000 * a) RAW_MAX := by
    apply toInt32_eq_self
    · simp only [RAW_MAX]
      omega
    · simp only [RAW_MAX]
      omega
  unfold percent_mul
  rw [hid]
  simp only [RAW_MAX]
  omega

/-! ### C5: the shape of to_string output -/

/-- C5: for every `int32` raw value, `to_string` yields exactly 13 bytes: a
sign matching the sign of `raw`, one digit that is `0` or `1`, a dot, nine
digit characters, and the terminating zero byte; away from the two ±100%
boundary windows the nine fractional digits are the absolute raw value
expressed in billionths via the scalar-multiplication rule, left-padded with
zeros to nine digits — all computed with integer arithmetic only. -/
theorem to_string_format (raw : Int) (h1 : -(2 ^ 31) ≤ raw) (h2 : raw < 2 ^ 31) :
    (to_string raw).length = 13 ∧
    ∃ d1 frac, to_string raw =
        (if raw < 0 then '-' else '+') :: d1 :: '.' :: (frac ++ [Char.ofNat 0]) ∧
      (d1 = '0' ∨ d1 = '1') ∧
      frac.length = 9 ∧
      (∀ c ∈ frac, c.isDigit) ∧
      (RAW_MIN + 2 < raw → raw < RAW_MAX - 2 →
        d1 = '0' ∧
        frac = List.replicate
            (9 - (toDecimal (percent_mul 1000000000 |raw|).toNat).length) '0' ++
          toDecimal (percent_mul 1000000000 |raw|).toNat) := by
  by_cases hhi : RAW_MAX - 2 ≤ raw
  · have hstr : to_string raw =
        ['+', '1', '.', '0', '0', '0', '0', '0', '0', '0', '0', '0', Char.ofNat 0] := by
      unfold to_string
      rw [if_pos hhi]
    have hsign : (if raw < 0 then '-' else '+') = '+' := by
      rw [if_neg]
      simp only [RAW_MAX] at hhi
      omega
    refine ⟨by rw [hstr]; rfl, '1', List.replicate 9 '0', ?_, Or.inr rfl, by simp, ?_, ?_⟩
    · rw [hstr, hsign]
      decide
    · intro c hc
      rw [List.eq_of_mem_replicate hc]
      decide
    · intro h3 h4
      exfalso
      simp only [RAW_MAX, RAW_MIN] at hhi h3 h4
      omega
  · by_cases hlo : raw ≤ RAW_MIN + 2
    · have hstr : to_string raw =
          ['-', '1', '.', '0', '0', '0', '0', '0', '0', '0', '0', '0', Char.ofNat 0] := by
        unfold to_string
        rw [if_neg hhi, if_pos hlo]
      have hsign : (if raw < 0 then '-' else '+') = '-' := by
        rw [if_pos]
        simp only [RAW_MIN] at hlo
        omega
      refine ⟨by rw [hstr]; rfl, '1', List.replicate 9 '0', ?_, Or.inr rfl, by simp, ?_, ?_⟩
      · rw [hstr, hsign]
        decide
      · intro c hc
        rw [List.eq_of_mem_replicate hc]
        decide
      · intro h3 h4
        exfalso
        simp only [RAW_MAX, RAW_MIN] at hlo h3 h4
        omega
    · have habs : (if raw < 0 then raw * (-1) else raw) = |raw| := by
        rcases abs_cases raw with ⟨ha, hs⟩ | ⟨ha, hs⟩ <;> split_ifs <;> omega
      have hstr : to_string raw =
          [(if raw < 0 then '-' else '+'), '0', '.'] ++
            List.replicate
              ((12 - (toDecimal (percent_mul 1000000000 |raw|).toNat).length) - 3) '0' ++
            toDecimal (percent_mul 1000000000 |raw|).toNat ++ [Char.ofNat 0] := by
        unfold to_string
        rw [if_neg hhi, if_neg hlo]
        rw [habs]
      set q := percent_mul 1000000000 |raw| with hqdef
      set digs := toDecimal q.toNat with hddef
      have habs_bounds : 0 ≤ |raw| ∧ |raw| ≤ RAW_MAX - 3 := by
        rcases abs_cases raw with ⟨ha, hs⟩ | ⟨ha, hs⟩ <;>
          simp only [RAW_MAX, RAW_MIN] at hhi hlo ⊢ <;> omega
      have hqb := decimal_percent_bounds |raw| habs_bounds.1 habs_bounds.2
      rw [← hqdef] at hqb
      have hqnat : q.toNat < 10 ^ 9 := by omega
      have hlen : digs.length ≤ 9 := toDecimal_length_le q.toNat hqnat
      have hrepl : (12 - digs.length) - 3 = 9 - digs.length := by omega
      refine ⟨?_, '0', List.replicate (9 - digs.length) '0' ++ digs, ?_, Or.inl rfl,
        ?_, ?_, ?_⟩
      · rw [hstr]
        simp only [List.length_append, List.length_cons, List.length_replicate,
          List.length_nil]
        omega
      · rw [hstr, hrepl]
        simp only [List.cons_append, List.nil_append, List.append_assoc]
      · simp only [List.length_append, List.length_replicate]
        omega
      · intro c hc
        rcases List.mem_append.mp hc with hh | hh
        · rw [List.eq_of_mem_replicate hh]
          decide
        · exact toDecimal_digits q.toNat c hh
      · intro h3 h4
        exact ⟨rfl, rfl⟩

theorem to_string_format_witness : (to_string 1073741824).length = 13 :=
  (to_string_format 1073741824 (by decide) (by decide)).1

/-! ### C8: the duty-cycle split -/

/-- C8 is false as stated for the full clamped percent range: with a valid
negative percent (`raw = RAW_MIN`, i.e. -100%) and `total_cycles = 100`
(frequency 100 Hz over a one-second window), `high` is `-100`, which is
negative. -/
theorem calculate_duty_cycle_negative_counterexample :
    cycles_per 100 1 1 = 100 ∧
    RAW_MIN ≤ RAW_MIN ∧ RAW_MIN ≤ RAW_MAX ∧
    (calculate_duty_cycle 100 1 1 RAW_MIN).1 = -100 ∧
    (calculate_duty_cycle 100 1 1 RAW_MIN).1 < 0 := by
  exact ⟨by decide, le_refl _, by decide, by decide, by decide⟩

/-- C8 (amended): for every frequency, window period and percent raw value in
`[RAW_MIN, RAW_MAX]` with `0 ≤ total_cycles = cycles_per(period) ≤ INT32_MAX`,
`calculate_duty_cycle` returns `{high, low}` with `high + low = total_cycles`
exactly, `high` computed by the round-half-away-from-zero scalar rule and
`low` derived by subtraction; `high` and `low` are both non-negative provided
the percent is additionally non-negative (for negative percents `high` is
negative and `low` exceeds `total_cycles`). -/
theorem calculate_duty_cycle_spec (f dn dd raw : Int)
    (ht0 : 0 ≤ cycles_per f dn dd) (ht1 : cycles_per f dn dd ≤ INT32_MAX)
    (hr1 : RAW_MIN ≤ raw) (hr2 : raw ≤ RAW_MAX) :
    (calculate_duty_cycle f dn dd raw).1 + (calculate_duty_cycle f dn dd raw).2
        = cycles_per f dn dd ∧
    (calculate_duty_cycle f dn dd raw).1 = percent_mul (cycles_per f dn dd) raw ∧
    (0 ≤ raw →
      0 ≤ (calculate_duty_cycle f dn dd raw).1 ∧
      0 ≤ (calculate_duty_cycle f dn dd raw).2) := by
  have hpair : calculate_duty_cycle f dn dd raw
      = (percent_mul (cycles_per f dn dd) raw,
          cycles_per f dn dd - percent_mul (cycles_per f dn dd) raw) := rfl
  rw [hpair]
  dsimp only
  refine ⟨by ring, rfl, ?_⟩
  intro hraw
  set t := cycles_per f dn dd with ht
  have hnear := rounding_division_near (t * raw)
  have hprod0 : 0 ≤ t * raw := mul_nonneg ht0 hraw
  have hprod1 : t * raw ≤ t * RAW_MAX := mul_le_mul_of_nonneg_left hr2 ht0
  have hq : 0 ≤ rounding_division (t * raw) RAW_MAX ∧
      rounding_division (t * raw) RAW_MAX ≤ t := by
    simp only [RAW_MAX] at hnear hprod1 ⊢
    simp only [INT32_MAX] at ht1
    constructor <;> nlinarith [hnear.1, hnear.2]
  have hid : toInt32 (rounding_division (t * raw) RAW_MAX)
      = rounding_division (t * raw) RAW_MAX := by
    apply toInt32_eq_self
    · simp only [INT32_MAX] at ht1
      omega
    · simp only [INT32_MAX] at ht1
      omega
  unfold percent_mul
  rw [hid]
  exact ⟨hq.1, by omega⟩

theorem calculate_duty_cycle_spec_witness :
    (calculate_duty_cycle 14000000 20 1000 536870912).1 +
        (calculate_duty_cycle 14000000 20 1000 536870912).2
      = cycles_per 14000000 20 1000 ∧
    0 ≤ (calculate_duty_cycle 14000000 20 1000 536870912).1 ∧
    0 ≤ (calculate_duty_cycle 14000000 20 1000 536870912).2 :=
  ⟨(calculate_duty_cycle_spec 14000000 20 1000 536870912 (by decide) (by decide)
      (by decide) (by decide)).1,
    (calculate_duty_cycle_spec 14000000 20 1000 536870912 (by decide) (by decide)
      (by decide) (by decide)).2.2 (by decide)⟩

end Embed
